import Mathlib

/-!
Verification development for the backend1 document-search service.

Shallow embedding of the core routines the specification talks about:

* `simple_chunk_text` and `delete_file` from `src/app/api/chunks.py`,
* `embed_texts` / `get_model` from `src/app/core/embeddings.py`,
* `add_chunks_to_index`, `_load_index`, `search_index`, `get_chunk_by_id`
  from `src/app/storage/index_store.py`.

Python strings are modelled as `List Char`, floats as `ℚ` (the claims under
study only depend on exact arithmetic: squared L2 distances, equality with 0,
ordering), the sqlite mapping table as a list of rows, the numpy/faiss state
as explicit fields of a `Store` record, and raised exceptions as `Except`.
`uuid.uuid4()` is modelled by a fresh-id counter (its only relevant property
is that generated ids are fresh).
-/

namespace Backend1

/-! ### Chunker (src/app/api/chunks.py) -/

/-- ASCII whitespace as matched by Python's `str.strip` and `\s`. -/
def isWs (c : Char) : Bool :=
  c == ' ' || c == '\t' || c == '\n' || c == '\r' || c == '\x0b' || c == '\x0c'

/-- The sentence-ending punctuation of the lookbehind `(?<=[.!?])`. -/
def isSentEnd (c : Char) : Bool :=
  c == '.' || c == '!' || c == '?'

/-- Python `str.strip()` on a character list. -/
def pyStrip (cs : List Char) : List Char :=
  ((cs.dropWhile isWs).reverse.dropWhile isWs).reverse

/-- Is the most recently scanned character (head of the reversed accumulator)
sentence-ending punctuation?  This is the lookbehind `(?<=[.!?])`. -/
def headSentEnd : List Char → Bool
  | [] => false
  | p :: _ => isSentEnd p

/-- Scanner for `re.split(r'(?<=[.!?])\s+', s)` (chunks.py:75).  `acc` holds
the current segment reversed; `skipping` is true while the scanner is
consuming the (maximal) whitespace run of a boundary match. -/
def splitSentencesAux : List Char → Bool → List Char → List (List Char)
  | [], _, acc => [acc.reverse]
  | c :: rest, true, acc =>
    if isWs c then splitSentencesAux rest true acc
    else splitSentencesAux rest false (c :: acc)
  | c :: rest, false, acc =>
    if isWs c && headSentEnd acc then
      acc.reverse :: splitSentencesAux rest true []
    else splitSentencesAux rest false (c :: acc)

/-- `re.split(r'(?<=[.!?])\s+', s)`: split at whitespace runs that follow
sentence-ending punctuation, consuming the whitespace. -/
def splitSentences (cs : List Char) : List (List Char) :=
  splitSentencesAux cs false []

/-- One chunk dict produced by `simple_chunk_text`. -/
structure Chunk where
  text : List Char
  chunk_number : Nat
  doc_id : String
deriving DecidableEq, Repr

/-- The sentence-accumulation loop of `simple_chunk_text` (chunks.py:81-105).
`current` is `current_chunk`, `num` is `chunk_num`; `MIN_CHUNK_LENGTH = 50`.
The size test is `len(current_chunk + " " + sentence) > chunk_size`. -/
def chunkLoop (chunk_size : Int) (docId : String) :
    List (List Char) → List Char → Nat → List Chunk
  | [], current, num =>
    if pyStrip current ≠ [] ∧ 50 < (pyStrip current).length then
      [{ text := pyStrip current, chunk_number := num, doc_id := docId }]
    else []
  | s :: rest, current, num =>
    let s' := pyStrip s
    if s' = [] then chunkLoop chunk_size docId rest current num
    else if current ≠ [] ∧ chunk_size < ((current.length + 1 + s'.length : Nat) : Int) then
      if 50 < (pyStrip current).length then
        { text := pyStrip current, chunk_number := num, doc_id := docId } ::
          chunkLoop chunk_size docId rest s' (num + 1)
      else chunkLoop chunk_size docId rest s' num
    else
      chunkLoop chunk_size docId rest
        (if current = [] then s' else current ++ [' '] ++ s') num

/-- `simple_chunk_text(text, chunk_size, doc_id)` (chunks.py:64-107). -/
def simple_chunk_text (text : List Char) (chunk_size : Int) (doc_id : String) :
    List Chunk :=
  if pyStrip text = [] then []
  else chunkLoop chunk_size doc_id (splitSentences (pyStrip text)) [] 1

/-! ### Embedder (src/app/core/embeddings.py) -/

/-- The deterministic hash-based fallback embedding (embeddings.py:55-63):
component `i` of the vector for a text with Python hash `h` is
`float((h + i) % 1000) / 1000.0`, for `i < 384`. -/
def hashEmbedding (h : Int) : List ℚ :=
  (List.range 384).map (fun i : Nat => (((h + (i : Int)) % 1000 : Int) : ℚ) / 1000)

/-- The resolved model handle: either the loaded sentence-transformer (whose
`encode` may raise, modelled by `Option`) or the string sentinel `"simple"`. -/
inductive Model where
  | simple
  | primary (encode : List String → Option (List (List ℚ)))

/-- Outcome of `SentenceTransformer('all-MiniLM-L6-v2')` inside `get_model`:
either a usable encoder or a raised exception. -/
inductive LoadOutcome where
  | ok (encode : List String → Option (List (List ℚ)))
  | fail

/-- `get_model()` (embeddings.py:21-38): without the sentence-transformers
package, or when loading the model raises, the sentinel `"simple"` is used. -/
def get_model (available : Bool) (lo : LoadOutcome) : Model :=
  if available = false then .simple
  else
    match lo with
    | .ok enc => .primary enc
    | .fail => .simple

/-- `embed_texts(texts)` (embeddings.py:40-74).  The `Bool` records whether a
degraded-mode event was logged (`logger.warning` / `logger.error` on the
fallback paths).  When `encode` raises, the code returns `[[0.0]*384]*len`. -/
def embed_texts (hash : String → Int) (available : Bool) (lo : LoadOutcome)
    (texts : List String) : List (List ℚ) × Bool :=
  match get_model available lo with
  | .simple => (texts.map (fun t => hashEmbedding (hash t)), true)
  | .primary enc =>
    match enc texts with
    | some embs => (embs, false)
    | none => (texts.map (fun _ => List.replicate 384 (0 : ℚ)), true)

/-! ### Vector index store (src/app/storage/index_store.py) -/

/-- An embedding vector (a Python list of floats), modelled over exact
integer arithmetic: every property at issue (squared L2 distances, their
ordering, equality with zero) is ring/order-theoretic and identical over any
linearly ordered commutative ring. -/
abbrev Vec := List Int

/-- One row of the sqlite `chunks` table: `(chunk_id, doc_id, text)`. -/
abbrev MRow := Nat × String × String

/-- The whole state of the index-store module: the sqlite mapping table
(`mapping.db`), the in-memory faiss index `_index` (dimension and stored
vectors, `none` when `_index is None`), the in-memory `_ids` list, the
persisted `vectors.npy` (shape `(n, d)`, hence a dimension even when empty)
and `ids.json` (both `none` when the file does not exist), and the fresh-id
counter standing in for `uuid.uuid4()`. -/
structure Store where
  mapping : List MRow
  mem : Option (Nat × List Vec)
  memIds : List Nat
  file : Option (Nat × List Vec)
  fileIds : Option (List Nat)
  nextId : Nat
deriving DecidableEq, Repr

/-- A fresh process against empty storage. -/
def initStore : Store :=
  { mapping := [], mem := none, memIds := [], file := none, fileIds := none,
    nextId := 0 }

/-- The degraded-mode loop of `add_chunks_to_index` (index_store.py:67-78):
one mapping row and one fresh chunk id per input text, in order. -/
def degradedAdd (docId : String) : List String → Nat → List MRow × List Nat
  | [], _ => ([], [])
  | txt :: rest, next =>
    let r := degradedAdd docId rest (next + 1)
    ((next, docId, txt) :: r.1, next :: r.2)

/-- The faiss-mode loop of `add_chunks_to_index` (index_store.py:94-100).
Per iteration: a pending sqlite row is executed, the chunk id is recorded,
then `_index.add` is called — which raises when the embedding's length is not
the index dimension `d` (and `embs[i]` raises when `embs` is too short).  On
such an exception the sqlite transaction is never committed (pending rows and
chunk ids are lost) but vectors/ids already added in earlier iterations stay
in the in-memory index.  Returns the final `(vectors, ids, counter)` of the
in-memory state and, on success, the pending rows and returned chunk ids. -/
def addLoop (docId : String) (d : Nat) :
    List String → List Vec → Nat → List MRow → List Nat → List Vec →
    List Nat → (List Vec × List Nat × Nat) × Except Unit (List MRow × List Nat)
  | [], _, next, pend, cids, vecs, ids => ((vecs, ids, next), .ok (pend, cids))
  | _ :: _, [], next, _, _, vecs, ids => ((vecs, ids, next), .error ())
  | txt :: rest, e :: erest, next, pend, cids, vecs, ids =>
    if e.length ≠ d then ((vecs, ids, next), .error ())
    else
      addLoop docId d rest erest (next + 1) (pend ++ [(next, docId, txt)])
        (cids ++ [next]) (vecs ++ [e]) (ids ++ [next])

/-- The mapping rows a successful insert loop appends: `(next + j, doc_id,
chunks[j])` in order. -/
def mkRows (docId : String) : List String → Nat → List MRow
  | [], _ => []
  | txt :: rest, next => (next, docId, txt) :: mkRows docId rest (next + 1)

/-- The chunk ids a successful insert loop generates: `next, next+1, …`. -/
def freshIds (next : Nat) : Nat → List Nat
  | 0 => []
  | n + 1 => next :: freshIds (next + 1) n

/-- `add_chunks_to_index(doc_id, chunks, embeddings)` (index_store.py:63-111).
`embs` is the resolved embeddings list (callers that pass `embeddings=None`
correspond to `embs = embed_texts(chunks)`).  Without faiss only mapping rows
are written.  With faiss: the index is created on first use with dimension
`len(embs[0])` (384 when `embs` is empty); on success the mapping rows are
committed and the full vector/id state is rewritten to disk; on an exception
the commit and the persist step never run. -/
def add_chunks_to_index (faiss : Bool) (docId : String) (chunks : List String)
    (embs : List Vec) (st : Store) : Store × Except Unit (List Nat) :=
  if faiss = false then
    let r := degradedAdd docId chunks st.nextId
    ({ st with mapping := st.mapping ++ r.1, nextId := st.nextId + chunks.length },
      .ok r.2)
  else
    let d : Nat :=
      match st.mem with
      | some dv => dv.1
      | none => if embs ≠ [] then (embs.headD []).length else 384
    let vecs0 : List Vec :=
      match st.mem with
      | some dv => dv.2
      | none => []
    match addLoop docId d chunks embs st.nextId [] [] vecs0 st.memIds with
    | ((vecs, ids, next), .ok pc) =>
      ({ st with mapping := st.mapping ++ pc.1, mem := some (d, vecs),
                 memIds := ids, file := some (d, vecs), fileIds := some ids,
                 nextId := next },
        .ok pc.2)
    | ((vecs, ids, next), .error _) =>
      ({ st with mem := some (d, vecs), memIds := ids, nextId := next },
        .error ())

/-- `_load_index()` (index_store.py:41-59): a no-op when `_index` is already
set; otherwise reconstructs the in-memory index and `_ids` from
`vectors.npy`/`ids.json` when both exist (and faiss is available). -/
def load_index (faiss : Bool) (st : Store) : Store :=
  if st.mem.isSome then st
  else if faiss = false then { st with mem := none, memIds := [] }
  else
    match st.file, st.fileIds with
    | some dv, some ids => { st with mem := some dv, memIds := ids }
    | _, _ => { st with mem := none, memIds := [] }

/-- A process restart: the in-memory globals are reset, then `_load_index()`
runs at import time (index_store.py:61); the sqlite file and the persisted
vector/id files survive. -/
def restart (faiss : Bool) (st : Store) : Store :=
  load_index faiss { st with mem := none, memIds := [] }

/-- Squared L2 distance, as computed by `faiss.IndexFlatL2`. -/
def d2 (q v : Vec) : Int :=
  ((q.zip v).map (fun p => (p.1 - p.2) ^ 2)).sum

/-- Result ordering of a flat L2 search: ascending distance, ties broken by
lower row index (a deterministic model of the backend's tie order). -/
def pairLe (p q : Int × Int) : Prop :=
  p.2 < q.2 ∨ (p.2 = q.2 ∧ p.1 ≤ q.1)

instance : DecidableRel pairLe := fun p q =>
  inferInstanceAs (Decidable (p.2 < q.2 ∨ (p.2 = q.2 ∧ p.1 ≤ q.1)))

instance : IsTotal (Int × Int) pairLe :=
  ⟨fun p q => by
    rcases lt_trichotomy p.2 q.2 with h | h | h
    · exact Or.inl (Or.inl h)
    · rcases le_total p.1 q.1 with h1 | h1
      · exact Or.inl (Or.inr ⟨h, h1⟩)
      · exact Or.inr (Or.inr ⟨h.symm, h1⟩)
    · exact Or.inr (Or.inl h)⟩

instance : IsTrans (Int × Int) pairLe :=
  ⟨fun p q r hpq hqr => by
    rcases hpq with h1 | ⟨h1, h1'⟩
    · rcases hqr with h2 | ⟨h2, _⟩
      · exact Or.inl (h1.trans h2)
      · exact Or.inl (h2 ▸ h1)
    · rcases hqr with h2 | ⟨h2, h2'⟩
      · exact Or.inl (h1 ▸ h2)
      · exact Or.inr ⟨h1.trans h2, h1'.trans h2'⟩⟩

/-- The `(row index, distance)` pairs of the stored vectors against a query,
in storage order starting at index `j` (the enumeration faiss searches). -/
def distListAux (q : Vec) : List Vec → Int → List (Int × Int)
  | [], _ => []
  | v :: rest, j => (j, d2 q v) :: distListAux q rest (j + 1)

/-- `search_index(query_vec, k)` (index_store.py:113-131).  Degraded mode and
an absent/empty index return `[]` before any backend call.  Otherwise the
backend raises unless `k > 0` and the query has the index dimension; it
returns the `k` best `(index, distance)` columns — the `min(k, ntotal)`
nearest in ascending distance, padded with placeholder index `-1` — and the
loop skips negative indices and maps the rest through `_ids`. -/
def search_index (faiss : Bool) (st : Store) (query_vec : Vec) (k : Int) :
    Except Unit (List (Nat × Int)) :=
  if faiss = false then .ok []
  else
    match st.mem with
    | none => .ok []
    | some (d, vecs) =>
      if vecs.length = 0 then .ok []
      else if k ≤ 0 then .error ()
      else if query_vec.length ≠ d then .error ()
      else
        let sorted := List.insertionSort pairLe (distListAux query_vec vecs 0)
        let cols := sorted.take k.toNat ++
          List.replicate (k.toNat - vecs.length) ((-1 : Int), (0 : Int))
        .ok (cols.filterMap (fun p =>
          if p.1 < 0 then none else some (st.memIds.getD p.1.toNat 0, p.2)))

/-- `get_chunk_by_id(chunk_id)` (index_store.py:133-139): the `text` of the
mapping row with that primary key, `""` when absent. -/
def get_chunk_by_id (st : Store) (chunk_id : Nat) : String :=
  match st.mapping.find? (fun r => r.1 == chunk_id) with
  | some r => r.2.2
  | none => ""

/-- One `add_chunks_to_index` call of a call sequence. -/
structure AddCall where
  docId : String
  chunks : List String
  embs : List Vec

/-- Run a sequence of `add_chunks_to_index` calls; the flag is `true` iff
every call returned normally (the run stops at the first exception). -/
def runAddsE (faiss : Bool) : List AddCall → Store → Store × Bool
  | [], st => (st, true)
  | c :: rest, st =>
    match add_chunks_to_index faiss c.docId c.chunks c.embs st with
    | (st', .ok _) => runAddsE faiss rest st'
    | (st', .error _) => (st', false)

deriving instance DecidableEq for Except

/-- Number of vectors held by the in-memory index (`_index.ntotal`). -/
def vecCount (st : Store) : Nat :=
  match st.mem with
  | some dv => dv.2.length
  | none => 0

/-- The referential-consistency invariant: the chunk ids of the mapping rows
coincide (in order) with the in-memory `_ids` list, the persisted `ids.json`
agrees with `_ids`, and there is one id per stored vector. -/
def consistent (st : Store) : Prop :=
  st.mapping.map (fun r => r.1) = st.memIds ∧
  st.fileIds.getD [] = st.memIds ∧
  vecCount st = st.memIds.length

/-! ### File deletion (src/app/api/chunks.py:330-349) -/

/-- Application-level state seen by the `/files/{doc_id}` DELETE handler:
the uploaded files (doc id and extension), the metadata entries, and the
index store. -/
structure AppState where
  files : List (String × String)
  metadata : List (String × String)
  index : Store
deriving DecidableEq, Repr

/-- `delete_file(doc_id)` (chunks.py:330-349): 404 when `get_pdf_path` finds
no file; otherwise it removes the file (`os.remove`) and its metadata entry
(`delete_file_metadata`).  No statement in the handler — nor any function in
`index_store.py` — touches the mapping table, the in-memory index or the
persisted vector/id files. -/
def delete_file (docId : String) (s : AppState) : AppState × Except Unit Unit :=
  match s.files.find? (fun p => p.1 == docId) with
  | none => (s, .error ())
  | some _ =>
    ({ s with files := s.files.filter (fun p => p.1 != docId),
              metadata := s.metadata.filter (fun p => p.1 != docId) },
      .ok ())

/-! ### Lemmas about `pyStrip` and the chunk loop -/

lemma head?_dropWhile_not {α : Type} (p : α → Bool) :
    ∀ (l : List α) {x : α}, (l.dropWhile p).head? = some x → p x = false
  | [], x, h => by simp [List.dropWhile] at h
  | a :: l, x, h => by
    by_cases hp : p a
    · rw [List.dropWhile_cons_of_pos hp] at h
      exact head?_dropWhile_not p l h
    · rw [List.dropWhile_cons_of_neg hp] at h
      simp only [List.head?_cons, Option.some.injEq] at h
      subst h
      simpa using hp

lemma dropWhile_eq_self_of_head {α : Type} (p : α → Bool) (l : List α)
    (h : ∀ x, l.head? = some x → p x = false) : l.dropWhile p = l := by
  cases l with
  | nil => rfl
  | cons a t =>
    have := h a rfl
    exact List.dropWhile_cons_of_neg (by simp [this])

lemma getLast?_dropWhile {α : Type} (p : α → Bool) :
    ∀ (l : List α), l.dropWhile p ≠ [] → (l.dropWhile p).getLast? = l.getLast?
  | [], h => by simp [List.dropWhile] at h
  | a :: l, h => by
    by_cases hp : p a
    · rw [List.dropWhile_cons_of_pos hp] at h ⊢
      have hl : l ≠ [] := by
        intro he
        exact h (by simp [he, List.dropWhile])
      rw [getLast?_dropWhile p l h]
      obtain ⟨b, t, rfl⟩ := List.exists_cons_of_ne_nil hl
      simp [List.getLast?_cons]
    · rw [List.dropWhile_cons_of_neg hp]

/-- `str.strip()` is idempotent. -/
lemma pyStrip_idem (cs : List Char) : pyStrip (pyStrip cs) = pyStrip cs := by
  unfold pyStrip
  set A := cs.dropWhile isWs with hA
  set B := A.reverse.dropWhile isWs with hB
  by_cases hBnil : B = []
  · simp [hBnil]
  · have hstep1 : B.reverse.dropWhile isWs = B.reverse := by
      apply dropWhile_eq_self_of_head
      intro x hx
      rw [List.head?_reverse] at hx
      rw [hB, getLast?_dropWhile isWs A.reverse (hB ▸ hBnil)] at hx
      rw [List.getLast?_reverse] at hx
      exact head?_dropWhile_not isWs cs (hA ▸ hx)
    rw [hstep1, List.reverse_reverse]
    have hstep2 : B.dropWhile isWs = B := by
      apply dropWhile_eq_self_of_head
      intro x hx
      exact head?_dropWhile_not isWs A.reverse (hB ▸ hx)
    rw [hstep2]

/-- Every chunk the accumulation loop emits carries text that is already
stripped and strictly longer than `MIN_CHUNK_LENGTH = 50`. -/
lemma mem_chunkLoop (cs : Int) (d : String) (ss : List (List Char)) :
    ∀ (cur : List Char) (n : Nat) (c : Chunk),
      c ∈ chunkLoop cs d ss cur n → 50 < c.text.length ∧ pyStrip c.text = c.text := by
  induction ss with
  | nil =>
    intro cur n c hc
    simp only [chunkLoop] at hc
    split at hc
    · rename_i h
      rw [List.mem_singleton] at hc
      subst hc
      exact ⟨h.2, pyStrip_idem cur⟩
    · simp at hc
  | cons s rest ih =>
    intro cur n c hc
    simp only [chunkLoop] at hc
    split at hc
    · exact ih cur n c hc
    · split at hc
      · split at hc
        · rename_i hlen
          rw [List.mem_cons] at hc
          rcases hc with hc | hc
          · subst hc
            exact ⟨hlen, pyStrip_idem cur⟩
          · exact ih _ _ c hc
        · exact ih _ _ c hc
      · exact ih _ _ c hc

/-- C6: every chunk emitted by `simple_chunk_text` has trimmed text length at
least the minimum substantiveness threshold of 50 characters (the code in
fact enforces the strict bound `> 50`); a buffer whose trimmed length is
below the minimum is discarded, never emitted. -/
theorem c6_min_chunk_length (text : List Char) (chunk_size : Int) (docId : String)
    (c : Chunk) (hc : c ∈ simple_chunk_text text chunk_size docId) :
    50 ≤ (pyStrip c.text).length ∧ 50 ≤ c.text.length := by
  unfold simple_chunk_text at hc
  split at hc
  · simp at hc
  · obtain ⟨h1, h2⟩ := mem_chunkLoop chunk_size docId _ _ _ c hc
    rw [h2]
    exact ⟨le_of_lt h1, le_of_lt h1⟩

/-- Witness for C6 at a concrete input: a 60-character text yields a chunk,
and that chunk satisfies the bound. -/
theorem c6_min_chunk_length_witness :
    (Chunk.mk (List.replicate 60 'x') 1 "d" ∈
      simple_chunk_text (List.replicate 60 'x') 400 "d") ∧
    (50 ≤ (pyStrip (Chunk.mk (List.replicate 60 'x') 1 "d").text).length ∧
      50 ≤ (Chunk.mk (List.replicate 60 'x') 1 "d").text.length) :=
  ⟨by decide, c6_min_chunk_length (List.replicate 60 'x') 400 "d" _ (by decide)⟩

set_option maxRecDepth 8000 in
/-- C7: chunking `"A. B. " + "x"*500` with `chunk_size = 400` discards the
short `"A. B."` buffer (5 characters, below the 50-character minimum) and
emits exactly one chunk: the 500-character run of `'x'`, whole, untruncated,
numbered 1. -/
theorem c7_oversized_segment :
    simple_chunk_text ("A. B. ".toList ++ List.replicate 500 'x') 400 "d" =
      [{ text := List.replicate 500 'x', chunk_number := 1, doc_id := "d" }] := by
  decide

/-! ### Lemmas about the degraded-mode insert -/

lemma degradedAdd_fst_length (docId : String) :
    ∀ (chunks : List String) (next : Nat),
      (degradedAdd docId chunks next).1.length = chunks.length
  | [], _ => rfl
  | _ :: rest, next => by
    simp [degradedAdd, degradedAdd_fst_length docId rest (next + 1)]

lemma degradedAdd_snd_length (docId : String) :
    ∀ (chunks : List String) (next : Nat),
      (degradedAdd docId chunks next).2.length = chunks.length
  | [], _ => rfl
  | _ :: rest, next => by
    simp [degradedAdd, degradedAdd_snd_length docId rest (next + 1)]

lemma degradedAdd_snd_getD (docId : String) :
    ∀ (chunks : List String) (next i : Nat), i < chunks.length →
      (degradedAdd docId chunks next).2.getD i 0 = next + i
  | [], _, i, hi => by simp at hi
  | _ :: rest, next, 0, _ => by simp [degradedAdd]
  | _ :: rest, next, i + 1, hi => by
    have h := degradedAdd_snd_getD docId rest (next + 1) i
      (by simp at hi; omega)
    simp only [degradedAdd, List.getD_cons_succ]
    rw [h]
    omega

lemma find?_degradedAdd (docId : String) :
    ∀ (chunks : List String) (next i : Nat), i < chunks.length →
      ((degradedAdd docId chunks next).1.find? (fun r => r.1 == next + i)) =
        some (next + i, docId, chunks.getD i "")
  | [], _, i, hi => by simp at hi
  | txt :: rest, next, 0, _ => by
    simp [degradedAdd, List.find?_cons_of_pos]
  | txt :: rest, next, i + 1, hi => by
    have hne : ¬ ((next, docId, txt).1 == next + (i + 1)) = true := by simp
    simp only [degradedAdd]
    rw [@List.find?_cons_of_neg _ (fun r => r.1 == next + (i + 1)) (next, docId, txt)
      ((degradedAdd docId rest (next + 1)).1) hne]
    have h := find?_degradedAdd docId rest (next + 1) i (by simp at hi; omega)
    rw [show next + (i + 1) = (next + 1) + i by omega]
    simpa using h

/-- C5: in degraded mode (faiss unavailable) `add_chunks_to_index` still
succeeds, storing exactly one mapping row per input chunk; afterwards
`get_chunk_by_id` returns each chunk's stored text for the returned id, and
`search_index` returns an empty list for every query instead of raising. -/
theorem c5_degraded_mode_insert (docId : String) (chunks : List String)
    (embs : List Vec) (st : Store)
    (hw : ∀ r ∈ st.mapping, r.1 < st.nextId) :
    ∃ cids, add_chunks_to_index false docId chunks embs st =
        ({ st with mapping := st.mapping ++ (degradedAdd docId chunks st.nextId).1,
                   nextId := st.nextId + chunks.length }, .ok cids) ∧
      cids.length = chunks.length ∧
      (add_chunks_to_index false docId chunks embs st).1.mapping.length =
        st.mapping.length + chunks.length ∧
      (∀ i, i < chunks.length →
        get_chunk_by_id (add_chunks_to_index false docId chunks embs st).1
          (cids.getD i 0) = chunks.getD i "") ∧
      (∀ q k, search_index false
        (add_chunks_to_index false docId chunks embs st).1 q k = .ok []) := by
  refine ⟨(degradedAdd docId chunks st.nextId).2, rfl, degradedAdd_snd_length _ _ _,
    ?_, ?_, fun q k => rfl⟩
  · show (st.mapping ++ (degradedAdd docId chunks st.nextId).1).length = _
    rw [List.length_append, degradedAdd_fst_length]
  · intro i hi
    rw [degradedAdd_snd_getD docId chunks st.nextId i hi]
    show get_chunk_by_id _ _ = _
    unfold get_chunk_by_id
    have hmap : (add_chunks_to_index false docId chunks embs st).1.mapping =
        st.mapping ++ (degradedAdd docId chunks st.nextId).1 := rfl
    rw [hmap, List.find?_append]
    have h1 : st.mapping.find? (fun r => r.1 == st.nextId + i) = none :=
      List.find?_eq_none.mpr (fun r hr => by
        have hlt := hw r hr
        simp only [beq_iff_eq]
        omega)
    rw [h1, find?_degradedAdd docId chunks st.nextId i hi]
    rfl

/-- Witness for C5 at a concrete input: one chunk inserted into the empty
store without the backend. -/
theorem c5_degraded_mode_insert_witness :
    ∃ cids, add_chunks_to_index false "d" ["hello"] [] initStore =
        ({ initStore with
            mapping := initStore.mapping ++ (degradedAdd "d" ["hello"] initStore.nextId).1,
            nextId := initStore.nextId + ["hello"].length }, .ok cids) ∧
      cids.length = ["hello"].length ∧
      (add_chunks_to_index false "d" ["hello"] [] initStore).1.mapping.length =
        initStore.mapping.length + ["hello"].length ∧
      (∀ i, i < ["hello"].length →
        get_chunk_by_id (add_chunks_to_index false "d" ["hello"] [] initStore).1
          (cids.getD i 0) = ["hello"].getD i "") ∧
      (∀ q k, search_index false
        (add_chunks_to_index false "d" ["hello"] [] initStore).1 q k = .ok []) :=
  c5_degraded_mode_insert "d" ["hello"] [] initStore (by simp [initStore])

/-- C9: the code performs no validation of non-positive `k`.  Against the
degraded backend, or an absent/empty index, `search_index` with `k ≤ 0`
silently returns `[]` — it is not rejected as a caller error; with a
non-empty faiss index the failure that does occur is raised by the backend
lookup call itself, not by any input validation. -/
theorem c9_nonpositive_k_not_rejected :
    search_index false initStore [] (-1) = .ok [] ∧
    search_index true initStore [1] 0 = .ok [] ∧
    search_index true (add_chunks_to_index true "d" ["c"] [[1]] initStore).1 [1] 0
      = .error () := by
  decide

/-- C2: `delete_file` removes only the uploaded file and its metadata entry.
After indexing one chunk for `"doc1"`, deleting `"doc1"` succeeds but the
index store is completely untouched: the document's mapping row survives and
its text is still retrievable — no cascading delete of index entries exists
anywhere in the code.  Moreover deleting a nonexistent document is a 404
error, not a no-op. -/
theorem c2_delete_file_keeps_index_entries :
    (delete_file "doc1"
        (AppState.mk [("doc1", "pdf")] [("doc1", "report.pdf")]
          (add_chunks_to_index false "doc1" ["some stored chunk text"] [] initStore).1)).2
      = .ok () ∧
    (delete_file "doc1"
        (AppState.mk [("doc1", "pdf")] [("doc1", "report.pdf")]
          (add_chunks_to_index false "doc1" ["some stored chunk text"] [] initStore).1)).1.index
      = (add_chunks_to_index false "doc1" ["some stored chunk text"] [] initStore).1 ∧
    (delete_file "doc1"
        (AppState.mk [("doc1", "pdf")] [("doc1", "report.pdf")]
          (add_chunks_to_index false "doc1" ["some stored chunk text"] [] initStore).1)).1.index.mapping
      = [(0, "doc1", "some stored chunk text")] ∧
    get_chunk_by_id
        (delete_file "doc1"
          (AppState.mk [("doc1", "pdf")] [("doc1", "report.pdf")]
            (add_chunks_to_index false "doc1" ["some stored chunk text"] [] initStore).1)).1.index
        0 = "some stored chunk text" ∧
    (delete_file "ghost" (AppState.mk [] [] initStore)).2 = .error () := by
  decide

/-! ### Lemmas about `search_index` -/

lemma length_distListAux (q : Vec) :
    ∀ (vs : List Vec) (j : Int), (distListAux q vs j).length = vs.length
  | [], _ => rfl
  | _ :: rest, j => by simp [distListAux, length_distListAux q rest (j + 1)]

lemma mem_distListAux_iff (q : Vec) :
    ∀ (vs : List Vec) (j : Int) (p : Int × Int),
      p ∈ distListAux q vs j ↔
        ∃ t, t < vs.length ∧ p = (j + t, d2 q (vs.getD t [])) := by
  intro vs
  induction vs with
  | nil => intro j p; simp [distListAux]
  | cons v rest ih =>
    intro j p
    simp only [distListAux, List.mem_cons, ih (j + 1)]
    constructor
    · rintro (rfl | ⟨t, ht, rfl⟩)
      · exact ⟨0, by simp⟩
      · exact ⟨t + 1, by simpa using ht, by simp [List.getD_cons_succ]; ring_nf⟩
    · rintro ⟨t, ht, rfl⟩
      cases t with
      | zero => left; simp
      | succ t =>
        right
        exact ⟨t, by simpa using ht, by simp [List.getD_cons_succ]; ring_nf⟩

lemma filterMap_length_of_forall_isSome {α β : Type} (f : α → Option β) :
    ∀ (l : List α), (∀ a ∈ l, (f a).isSome) → (l.filterMap f).length = l.length
  | [], _ => rfl
  | a :: l, h => by
    have ha := h a (by simp)
    obtain ⟨b, hb⟩ := Option.isSome_iff_exists.mp ha
    rw [List.filterMap_cons, hb]
    simp only [List.length_cons]
    rw [filterMap_length_of_forall_isSome f l (fun x hx => h x (by simp [hx]))]

lemma filterMap_replicate_none {α β : Type} (f : α → Option β) (x : α)
    (hx : f x = none) : ∀ (m : Nat), (List.replicate m x).filterMap f = []
  | 0 => rfl
  | m + 1 => by
    rw [List.replicate_succ, List.filterMap_cons, hx,
      filterMap_replicate_none f x hx m]

/-- C10: for a non-empty index of `n` stored vectors and any `k` exceeding
`n`, `search_index` returns exactly `n` `(chunk_id, distance)` pairs — the
backend's placeholder `-1` indices for the missing neighbours are filtered
out before indexing `_ids`, so the lookup never goes out of range and the
result never has more entries than stored vectors. -/
theorem c10_search_result_clamped (st : Store) (d : Nat) (vecs : List Vec)
    (q : Vec) (k : Int) (hmem : st.mem = some (d, vecs)) (hne : vecs ≠ [])
    (hq : q.length = d) (hk : (vecs.length : Int) < k) :
    ∃ l, search_index true st q k = .ok l ∧ l.length = vecs.length := by
  have hk0 : ¬ k ≤ 0 := by
    have : (0 : Int) ≤ (vecs.length : Int) := Int.ofNat_nonneg _
    omega
  have hlen0 : ¬ vecs.length = 0 := by simpa [List.length_eq_zero] using hne
  have hunfold : search_index true st q k =
      .ok (((List.insertionSort pairLe (distListAux q vecs 0)).take k.toNat ++
        List.replicate (k.toNat - vecs.length) ((-1 : Int), (0 : Int))).filterMap
          (fun p => if p.1 < 0 then none
            else some (st.memIds.getD p.1.toNat 0, p.2))) := by
    unfold search_index
    rw [hmem]
    dsimp only
    rw [if_neg hlen0, if_neg hk0, if_neg (show ¬ ¬ q.length = d by simp [hq]),
      if_neg (show ¬ (true = false) by simp)]
  refine ⟨_, hunfold, ?_⟩
  have hsortlen :
      (List.insertionSort pairLe (distListAux q vecs 0)).length = vecs.length := by
    rw [List.length_insertionSort, length_distListAux]
  have htake : (List.insertionSort pairLe (distListAux q vecs 0)).take k.toNat =
      List.insertionSort pairLe (distListAux q vecs 0) := by
    apply List.take_of_length_le
    rw [hsortlen]
    omega
  rw [List.filterMap_append, htake]
  have hpad : (List.replicate (k.toNat - vecs.length) ((-1 : Int), (0 : Int))).filterMap
      (fun p => if p.1 < 0 then none
        else some (st.memIds.getD p.1.toNat 0, p.2)) = [] := by
    apply filterMap_replicate_none
    simp
  rw [hpad, List.append_nil]
  rw [filterMap_length_of_forall_isSome, hsortlen]
  intro p hp
  have hp' : p ∈ distListAux q vecs 0 := by
    simpa using hp
  obtain ⟨t, _, rfl⟩ := (mem_distListAux_iff q vecs 0 p).mp hp'
  simp

/-- Witness for C10: one stored vector, `k = 5`. -/
theorem c10_search_result_clamped_witness :
    ∃ l, search_index true
        (Store.mk [(0, "d", "t")] (some (1, [[2]])) [0] (some (1, [[2]]))
          (some [0]) 1) [3] 5 = .ok l ∧ l.length = ([[2]] : List Vec).length :=
  c10_search_result_clamped _ 1 [[2]] [3] 5 rfl (by simp) rfl (by decide)

/-! ### Lemmas about the faiss-mode insert loop -/

lemma addLoop_ok_delta (docId : String) (d : Nat) :
    ∀ (chunks : List String) (embs : List Vec) (next : Nat) (pend : List MRow)
      (cids : List Nat) (vecs : List Vec) (ids : List Nat)
      (vecs' : List Vec) (ids' : List Nat) (next' : Nat) (pc : List MRow × List Nat),
      addLoop docId d chunks embs next pend cids vecs ids =
        ((vecs', ids', next'), .ok pc) →
      ∃ Δr Δv, pc.1 = pend ++ Δr ∧ pc.2 = cids ++ Δr.map (fun r => r.1) ∧
        ids' = ids ++ Δr.map (fun r => r.1) ∧ vecs' = vecs ++ Δv ∧
        Δv.length = Δr.length ∧ (∀ v ∈ Δv, v.length = d) := by
  intro chunks
  induction chunks with
  | nil =>
    intro embs next pend cids vecs ids vecs' ids' next' pc h
    simp only [addLoop, Prod.mk.injEq, Except.ok.injEq] at h
    obtain ⟨⟨rfl, rfl, rfl⟩, rfl⟩ := h
    exact ⟨[], [], by simp⟩
  | cons txt rest ih =>
    intro embs next pend cids vecs ids vecs' ids' next' pc h
    cases embs with
    | nil => simp only [addLoop, Prod.mk.injEq] at h; exact absurd h.2 (by simp)
    | cons e erest =>
      simp only [addLoop] at h
      split at h
      · simp only [Prod.mk.injEq] at h
        exact absurd h.2 (by simp)
      · rename_i hlen
        obtain ⟨Δr, Δv, h1, h2, h3, h4, h5, h6⟩ :=
          ih erest (next + 1) (pend ++ [(next, docId, txt)]) (cids ++ [next])
            (vecs ++ [e]) (ids ++ [next]) vecs' ids' next' pc h
        refine ⟨(next, docId, txt) :: Δr, e :: Δv, ?_, ?_, ?_, ?_, by simp [h5], ?_⟩
        · simpa [List.append_assoc] using h1
        · simpa [List.append_assoc] using h2
        · simpa [List.append_assoc] using h3
        · simpa [List.append_assoc] using h4
        · intro v hv
          rcases List.mem_cons.mp hv with rfl | hv
          · simpa using hlen
          · exact h6 v hv

lemma addLoop_error_extends (docId : String) (d : Nat) :
    ∀ (chunks : List String) (embs : List Vec) (next : Nat) (pend : List MRow)
      (cids : List Nat) (vecs : List Vec) (ids : List Nat)
      (vecs' : List Vec) (ids' : List Nat) (next' : Nat),
      addLoop docId d chunks embs next pend cids vecs ids =
        ((vecs', ids', next'), .error ()) →
      ∃ Δv Δi, vecs' = vecs ++ Δv ∧ ids' = ids ++ Δi := by
  intro chunks
  induction chunks with
  | nil =>
    intro embs next pend cids vecs ids vecs' ids' next' h
    simp only [addLoop, Prod.mk.injEq] at h
    exact absurd h.2 (by simp)
  | cons txt rest ih =>
    intro embs next pend cids vecs ids vecs' ids' next' h
    cases embs with
    | nil =>
      simp only [addLoop, Prod.mk.injEq] at h
      obtain ⟨⟨rfl, rfl, rfl⟩, -⟩ := h
      exact ⟨[], [], by simp⟩
    | cons e erest =>
      simp only [addLoop] at h
      split at h
      · simp only [Prod.mk.injEq] at h
        obtain ⟨⟨rfl, rfl, rfl⟩, -⟩ := h
        exact ⟨[], [], by simp⟩
      · obtain ⟨Δv, Δi, h1, h2⟩ :=
          ih erest (next + 1) (pend ++ [(next, docId, txt)]) (cids ++ [next])
            (vecs ++ [e]) (ids ++ [next]) vecs' ids' next' h
        exact ⟨e :: Δv, next :: Δi,
          by simpa [List.append_assoc] using h1,
          by simpa [List.append_assoc] using h2⟩

lemma consistent_initStore : consistent initStore := ⟨rfl, rfl, rfl⟩

lemma add_ok_preserves_consistent (docId : String) (chunks : List String)
    (embs : List Vec) (st st' : Store) (cids : List Nat)
    (hc : consistent st)
    (h : add_chunks_to_index true docId chunks embs st = (st', .ok cids)) :
    consistent st' := by
  unfold add_chunks_to_index at h
  rw [if_neg (by simp)] at h
  dsimp only at h
  split at h
  · rename_i vecs ids next pc hL
    obtain ⟨Δr, Δv, h1, h2, h3, h4, h5, h6⟩ :=
      addLoop_ok_delta docId _ chunks embs st.nextId [] [] _ st.memIds
        vecs ids next pc hL
    simp only [Prod.mk.injEq] at h
    obtain ⟨rfl, -⟩ := h
    have hV0 : (match st.mem with
        | some dv => dv.2
        | none => ([] : List Vec)).length = vecCount st := by
      cases hm : st.mem <;> simp [vecCount, hm]
    refine ⟨?_, ?_, ?_⟩
    · show (st.mapping ++ pc.1).map (fun r => r.1) = ids
      rw [List.map_append, hc.1, h3, h1]
      simp
    · show (some ids).getD [] = ids
      rfl
    · show vecs.length = ids.length
      rw [h4, h3, List.length_append, List.length_append, hV0, hc.2.2,
        List.length_map, h5]
  · simp only [Prod.mk.injEq] at h
    exact absurd h.2 (by simp)

lemma runAddsE_preserves (calls : List AddCall) :
    ∀ (st : Store), consistent st → (runAddsE true calls st).2 = true →
      consistent (runAddsE true calls st).1 := by
  induction calls with
  | nil => intro st hc _; exact hc
  | cons c rest ih =>
    intro st hc hok
    unfold runAddsE at hok ⊢
    split at hok
    · rename_i st' cids hadd
      exact ih st' (add_ok_preserves_consistent c.docId c.chunks c.embs st st'
        cids hc hadd) hok
    · simp at hok

/-- C1 (amended): after any sequence of `add_chunks_to_index` calls that all
return normally, with the vector-search backend available, the chunk ids of
the mapping rows equal the vector store's `_ids` list entry-for-entry (hence
as sets: no orphans in either direction), the persisted `ids.json` agrees,
and there is exactly one id per stored vector row. -/
theorem c1_referential_consistency_amended (calls : List AddCall)
    (h : (runAddsE true calls initStore).2 = true) :
    ((runAddsE true calls initStore).1.mapping.map (fun r => r.1)).toFinset =
        (runAddsE true calls initStore).1.memIds.toFinset ∧
      (runAddsE true calls initStore).1.mapping.map (fun r => r.1) =
        (runAddsE true calls initStore).1.memIds ∧
      (runAddsE true calls initStore).1.fileIds.getD [] =
        (runAddsE true calls initStore).1.memIds ∧
      vecCount (runAddsE true calls initStore).1 =
        (runAddsE true calls initStore).1.memIds.length := by
  obtain ⟨h1, h2, h3⟩ := runAddsE_preserves calls initStore consistent_initStore h
  exact ⟨by rw [h1], h1, h2, h3⟩

/-- Witness for C1 (amended): a single successful faiss-mode call. -/
theorem c1_referential_consistency_amended_witness :
    ((runAddsE true [AddCall.mk "d" ["a"] [[1, 0]]] initStore).1.mapping.map
        (fun r => r.1)).toFinset =
        (runAddsE true [AddCall.mk "d" ["a"] [[1, 0]]] initStore).1.memIds.toFinset ∧
      (runAddsE true [AddCall.mk "d" ["a"] [[1, 0]]] initStore).1.mapping.map
        (fun r => r.1) =
        (runAddsE true [AddCall.mk "d" ["a"] [[1, 0]]] initStore).1.memIds ∧
      (runAddsE true [AddCall.mk "d" ["a"] [[1, 0]]] initStore).1.fileIds.getD [] =
        (runAddsE true [AddCall.mk "d" ["a"] [[1, 0]]] initStore).1.memIds ∧
      vecCount (runAddsE true [AddCall.mk "d" ["a"] [[1, 0]]] initStore).1 =
        (runAddsE true [AddCall.mk "d" ["a"] [[1, 0]]] initStore).1.memIds.length :=
  c1_referential_consistency_amended [AddCall.mk "d" ["a"] [[1, 0]]] (by decide)

/-- C1 counterexample: a single degraded-mode (no-faiss) call breaks the
claimed set equality — the mapping table gains a row whose chunk id appears
in no vector-store id list. -/
theorem c1_counterexample :
    ((add_chunks_to_index false "d" ["hello"] [] initStore).1.mapping.map
        (fun r => r.1)).toFinset ≠
      (add_chunks_to_index false "d" ["hello"] [] initStore).1.memIds.toFinset := by
  decide

/-- C3 (amended): when `add_chunks_to_index` fails (in particular on a
dimension mismatch) the exception propagates and the *persisted* state is
unmodified — no mapping rows are committed and the vector/id files are
untouched — but the in-memory index and `_ids` list retain the vectors and
ids of the chunks that preceded the offending one in the batch. -/
theorem c3_error_preserves_persisted_state (docId : String) (chunks : List String)
    (embs : List Vec) (st st' : Store)
    (h : add_chunks_to_index true docId chunks embs st = (st', .error ())) :
    st'.mapping = st.mapping ∧ st'.file = st.file ∧ st'.fileIds = st.fileIds ∧
      ∃ Δi, st'.memIds = st.memIds ++ Δi := by
  unfold add_chunks_to_index at h
  rw [if_neg (by simp)] at h
  dsimp only at h
  split at h
  · simp only [Prod.mk.injEq] at h
    exact absurd h.2 (by simp)
  · rename_i vecs ids next u hL
    obtain ⟨Δv, Δi, h1, h2⟩ :=
      addLoop_error_extends docId _ chunks embs st.nextId [] [] _ st.memIds
        vecs ids next hL
    simp only [Prod.mk.injEq] at h
    obtain ⟨rfl, -⟩ := h
    exact ⟨rfl, rfl, rfl, Δi, h2⟩

/-- Witness for C3 (amended), at the concrete failing batch of the
counterexample: persisted state untouched, in-memory ids extended. -/
theorem c3_error_preserves_persisted_state_witness :
    (add_chunks_to_index true "d" ["a", "b"] [[1, 0], [0, 1, 1]] initStore).1.mapping
        = initStore.mapping ∧
      (add_chunks_to_index true "d" ["a", "b"] [[1, 0], [0, 1, 1]] initStore).1.file
        = initStore.file ∧
      (add_chunks_to_index true "d" ["a", "b"] [[1, 0], [0, 1, 1]] initStore).1.fileIds
        = initStore.fileIds ∧
      ∃ Δi, (add_chunks_to_index true "d" ["a", "b"] [[1, 0], [0, 1, 1]] initStore).1.memIds
        = initStore.memIds ++ Δi :=
  c3_error_preserves_persisted_state "d" ["a", "b"] [[1, 0], [0, 1, 1]] initStore
    (add_chunks_to_index true "d" ["a", "b"] [[1, 0], [0, 1, 1]] initStore).1 (by decide)

/-- C3 counterexample: a two-chunk batch whose second embedding has the wrong
dimensionality raises, yet the index is *not* left unmodified: the in-memory
index now holds the first chunk's vector and id (the resulting state differs
from the initial one). -/
theorem c3_counterexample :
    add_chunks_to_index true "d" ["a", "b"] [[1, 0], [0, 1, 1]] initStore =
        (Store.mk [] (some (2, [[1, 0]])) [0] none none 1, .error ()) ∧
      Store.mk [] (some (2, [[1, 0]])) [0] none none 1 ≠ initStore := by
  decide

/-! ### Embedder fallback behaviour -/

/-- C8 (amended): a failure of the primary sentence-transformer path inside
`embed_texts` never propagates, the result always has one vector of the fixed
dimensionality 384 per input text, and the fallback is logged as a
degraded-mode event.  However the two failure points fall back differently:
a model-*load* failure falls back to the deterministic hash-based embeddings,
while an *encode* failure returns all-zero 384-vectors. -/
theorem c8_embed_failure_fallback_amended (hash : String → Int)
    (lo : LoadOutcome) (texts : List String)
    (h : lo = .fail ∨ ∃ enc, lo = .ok enc ∧ enc texts = none) :
    (embed_texts hash true lo texts).2 = true ∧
    (embed_texts hash true lo texts).1.length = texts.length ∧
    (∀ v ∈ (embed_texts hash true lo texts).1, v.length = 384) ∧
    (lo = .fail → (embed_texts hash true lo texts).1 =
      texts.map (fun t => hashEmbedding (hash t))) ∧
    (∀ enc, lo = .ok enc → enc texts = none →
      (embed_texts hash true lo texts).1 =
        texts.map (fun _ => List.replicate 384 (0 : ℚ))) := by
  rcases h with rfl | ⟨enc, rfl, henc⟩
  · refine ⟨rfl, ?_, ?_, fun _ => rfl, ?_⟩
    · show (texts.map (fun t => hashEmbedding (hash t))).length = texts.length
      simp only [List.length_map]
    · intro v hv
      have hv' : v ∈ texts.map (fun t => hashEmbedding (hash t)) := hv
      simp only [List.mem_map] at hv'
      obtain ⟨t, -, rfl⟩ := hv'
      simp only [hashEmbedding, List.length_map, List.length_range]
    · intro enc' heq
      cases heq
  · have hembed : embed_texts hash true (.ok enc) texts =
        (texts.map (fun _ => List.replicate 384 (0 : ℚ)), true) := by
      unfold embed_texts get_model
      rw [if_neg (show ¬ (true = false) by simp)]
      dsimp only
      rw [henc]
    refine ⟨by rw [hembed], ?_, ?_, ?_, ?_⟩
    · rw [hembed]
      simp only [List.length_map]
    · intro v hv
      rw [hembed] at hv
      simp only [List.mem_map] at hv
      obtain ⟨t, -, rfl⟩ := hv
      simp only [List.length_replicate]
    · intro heq
      cases heq
    · intro enc' heq henc'
      cases heq
      rw [hembed]

/-- Witness for C8 (amended): a load failure on a one-element batch. -/
theorem c8_embed_failure_fallback_amended_witness :
    (embed_texts (fun _ => 0) true .fail ["a"]).2 = true ∧
    (embed_texts (fun _ => 0) true .fail ["a"]).1.length = ["a"].length ∧
    (∀ v ∈ (embed_texts (fun _ => 0) true .fail ["a"]).1, v.length = 384) ∧
    (LoadOutcome.fail = .fail → (embed_texts (fun _ => 0) true .fail ["a"]).1 =
      ["a"].map (fun t => hashEmbedding ((fun _ => (0 : Int)) t))) ∧
    (∀ enc, LoadOutcome.fail = .ok enc → enc ["a"] = none →
      (embed_texts (fun _ => 0) true .fail ["a"]).1 =
        ["a"].map (fun _ => List.replicate 384 (0 : ℚ))) :=
  c8_embed_failure_fallback_amended (fun _ => 0) .fail ["a"] (Or.inl rfl)

/-- C8 counterexample: when the loaded model's `encode` raises, the code
returns all-zero 384-vectors (embeddings.py:71-74) — *not* the hash-based
degraded embedding the claim describes: for hash value 0 the hash-based
vector has component `1/1000` at index 1, so the two disagree. -/
theorem c8_counterexample :
    (embed_texts (fun _ => 0) true (.ok (fun _ => none)) ["a"]).1 =
        [List.replicate 384 (0 : ℚ)] ∧
      [List.replicate 384 (0 : ℚ)] ≠
        ["a"].map (fun t => hashEmbedding ((fun _ => (0 : Int)) t)) := by
  constructor
  · rfl
  · intro hcontra
    have h1 : List.replicate 384 (0 : ℚ) = hashEmbedding 0 := by
      have := congrArg (fun l => l.headD []) hcontra
      simpa only [List.map_cons, List.map_nil, List.headD_cons] using this
    have hmem : ((((0 : Int) + ((1 : Nat) : Int)) % 1000 : Int) : ℚ) / 1000 ∈
        hashEmbedding 0 := by
      simp only [hashEmbedding, List.mem_map]
      exact ⟨1, by simp only [List.mem_range]; omega, rfl⟩
    rw [← h1] at hmem
    have hz := List.eq_of_mem_replicate hmem
    norm_num at hz

/-! ### Lemmas about distances, the exact insert run, reload and search -/

lemma d2_cons (a b : Int) (t s : Vec) :
    d2 (a :: t) (b :: s) = (a - b) ^ 2 + d2 t s := by
  simp [d2, List.zip_cons_cons]

lemma d2_nonneg (q v : Vec) : 0 ≤ d2 q v := by
  apply List.sum_nonneg
  intro x hx
  simp only [List.mem_map] at hx
  obtain ⟨p, -, rfl⟩ := hx
  exact sq_nonneg _

lemma d2_self : ∀ (v : Vec), d2 v v = 0
  | [] => rfl
  | a :: t => by rw [d2_cons, d2_self t]; ring

lemma d2_eq_zero_iff : ∀ (q v : Vec), q.length = v.length → (d2 q v = 0 ↔ q = v)
  | [], [], _ => by simp [d2]
  | [], _ :: _, h => by simp at h
  | _ :: _, [], h => by simp at h
  | a :: t, b :: s, h => by
    have hlen : t.length = s.length := by simpa using h
    rw [d2_cons]
    constructor
    · intro h0
      have hx := sq_nonneg (a - b)
      have hy := d2_nonneg t s
      have h1 : (a - b) ^ 2 = 0 := by linarith
      have h2 : d2 t s = 0 := by linarith
      have hab : a = b := by
        have := sq_eq_zero_iff.mp h1
        omega
      have hts : t = s := (d2_eq_zero_iff t s hlen).mp h2
      rw [hab, hts]
    · intro he
      injection he with h1 h2
      subst h1
      subst h2
      rw [sub_self, d2_self]
      ring

lemma freshIds_length : ∀ (n next : Nat), (freshIds next n).length = n
  | 0, _ => rfl
  | n + 1, next => by simp [freshIds, freshIds_length n (next + 1)]

lemma freshIds_getD : ∀ (n next i : Nat), i < n → (freshIds next n).getD i 0 = next + i
  | 0, _, i, hi => absurd hi (by omega)
  | _ + 1, next, 0, _ => by simp [freshIds]
  | n + 1, next, i + 1, hi => by
    have h := freshIds_getD n (next + 1) i (by omega)
    simp only [freshIds, List.getD_cons_succ]
    rw [h]
    omega

lemma getD_mem {α : Type} (d : α) :
    ∀ (l : List α) (i : Nat), i < l.length → l.getD i d ∈ l
  | [], i, h => absurd h (by simp)
  | a :: t, 0, _ => by simp
  | a :: t, i + 1, h => by
    simp only [List.getD_cons_succ]
    exact List.mem_cons_of_mem a (getD_mem d t i (by simpa using h))

lemma getD_inj_of_nodup {α : Type} (d : α) :
    ∀ (l : List α), l.Nodup → ∀ (i j : Nat), i < l.length → j < l.length →
      l.getD i d = l.getD j d → i = j
  | [], _, i, j, hi, _, _ => absurd hi (by simp)
  | a :: t, h, 0, 0, _, _, _ => rfl
  | a :: t, h, 0, j + 1, _, hj, he => by
    obtain ⟨ha, -⟩ := List.nodup_cons.mp h
    simp only [List.getD_cons_zero, List.getD_cons_succ] at he
    exact absurd (he ▸ getD_mem d t j (by simpa using hj)) ha
  | a :: t, h, i + 1, 0, hi, _, he => by
    obtain ⟨ha, -⟩ := List.nodup_cons.mp h
    simp only [List.getD_cons_zero, List.getD_cons_succ] at he
    exact absurd (he ▸ getD_mem d t i (by simpa using hi)) ha
  | a :: t, h, i + 1, j + 1, hi, hj, he => by
    obtain ⟨-, ht⟩ := List.nodup_cons.mp h
    simp only [List.getD_cons_succ] at he
    have := getD_inj_of_nodup d t ht i j (by simpa using hi) (by simpa using hj) he
    omega

lemma addLoop_exact (docId : String) (δ : Nat) :
    ∀ (chunks : List String) (embs : List Vec) (next : Nat) (pend : List MRow)
      (cids : List Nat) (vecs : List Vec) (ids : List Nat),
      chunks.length = embs.length → (∀ e ∈ embs, e.length = δ) →
      addLoop docId δ chunks embs next pend cids vecs ids =
        ((vecs ++ embs, ids ++ freshIds next chunks.length, next + chunks.length),
          .ok (pend ++ mkRows docId chunks next,
            cids ++ freshIds next chunks.length)) := by
  intro chunks
  induction chunks with
  | nil =>
    intro embs next pend cids vecs ids hlen hd
    have : embs = [] := List.length_eq_zero.mp hlen.symm
    subst this
    simp [addLoop, mkRows, freshIds]
  | cons txt rest ih =>
    intro embs next pend cids vecs ids hlen hd
    cases embs with
    | nil => simp at hlen
    | cons e erest =>
      have he : e.length = δ := hd e (by simp)
      have hlen' : rest.length = erest.length := by simpa using hlen
      simp only [addLoop, if_neg (show ¬ e.length ≠ δ by simp [he])]
      rw [ih erest (next + 1) (pend ++ [(next, docId, txt)]) (cids ++ [next])
        (vecs ++ [e]) (ids ++ [next]) hlen' (fun v hv => hd v (by simp [hv]))]
      simp [mkRows, freshIds, List.append_assoc]
      omega

lemma add_init (docId : String) (chunks : List String) (embs : List Vec)
    (δ : Nat) (hlen : chunks.length = embs.length)
    (hd : ∀ e ∈ embs, e.length = δ) (hne : embs ≠ []) :
    add_chunks_to_index true docId chunks embs initStore =
      (Store.mk (mkRows docId chunks 0) (some (δ, embs))
          (freshIds 0 chunks.length) (some (δ, embs))
          (some (freshIds 0 chunks.length)) chunks.length,
        .ok (freshIds 0 chunks.length)) := by
  have hdd : (if embs ≠ [] then (embs.headD []).length else 384) = δ := by
    rw [if_pos hne]
    obtain ⟨e, erest, rfl⟩ := List.exists_cons_of_ne_nil hne
    exact hd e (by simp)
  unfold add_chunks_to_index
  rw [if_neg (by simp)]
  dsimp only [initStore]
  rw [hdd, addLoop_exact docId δ chunks embs 0 [] [] [] [] hlen hd]
  simp

lemma restart_eq (m : List MRow) (dv : Nat × List Vec) (ids : List Nat) (n : Nat) :
    restart true (Store.mk m (some dv) ids (some dv) (some ids) n) =
      Store.mk m (some dv) ids (some dv) (some ids) n := rfl

/-- If the smallest distance in the pair list is attained by a unique pair
`(j, 0)` and all distances are nonnegative, that pair heads the sort. -/
lemma head_insertionSort_unique_zero (pairs : List (Int × Int)) (j : Int)
    (hmem : (j, 0) ∈ pairs) (hnonneg : ∀ p ∈ pairs, 0 ≤ p.2)
    (huniq : ∀ p ∈ pairs, p.2 = 0 → p = (j, 0)) :
    (List.insertionSort pairLe pairs).head? = some (j, 0) := by
  have hperm := List.perm_insertionSort pairLe pairs
  have hsorted := List.sorted_insertionSort pairLe pairs
  cases hs : List.insertionSort pairLe pairs with
  | nil =>
    rw [hs] at hperm
    rw [hperm.symm.eq_nil] at hmem
    simp at hmem
  | cons x t =>
    rw [hs] at hperm hsorted
    have hmem' : (j, 0) ∈ x :: t := hperm.mem_iff.mpr hmem
    rcases List.mem_cons.mp hmem' with heq | hmem''
    · rw [← heq]
      rfl
    · have hx : pairLe x (j, 0) := List.rel_of_sorted_cons hsorted _ hmem''
      have hxmem : x ∈ pairs := hperm.mem_iff.mp (by simp)
      have hx0 : 0 ≤ x.2 := hnonneg x hxmem
      rcases hx with hlt | ⟨heq0, -⟩
      · simp only at hlt
        omega
      · have hxj := huniq x hxmem heq0
        rw [hxj]
        rfl

lemma search_congr (faiss : Bool) (st st' : Store) (h1 : st'.mem = st.mem)
    (h2 : st'.memIds = st.memIds) (q : Vec) (k : Int) :
    search_index faiss st' q k = search_index faiss st q k := by
  unfold search_index
  rw [h1, h2]

/-- C4 (amended): insert a batch of `N` chunks with *pairwise-distinct*
embeddings of a common dimensionality into a fresh index; then after a
process restart (reload from the persisted files), searching with the exact
embedding of chunk `i` (any `k ≥ 1`) returns chunk `i`'s id as the first
result at distance 0, and every post-reload search result is identical to
the pre-shutdown one. -/
theorem c4_roundtrip_search_amended (docId : String) (chunks : List String)
    (embs : List Vec) (δ i : Nat) (k : Int)
    (hlen : chunks.length = embs.length) (hd : ∀ e ∈ embs, e.length = δ)
    (hnodup : embs.Nodup) (hi : i < embs.length) (hk : 1 ≤ k) :
    ∃ cids, (add_chunks_to_index true docId chunks embs initStore).2 = .ok cids ∧
      cids.length = chunks.length ∧
      (∀ q k', search_index true
          (restart true (add_chunks_to_index true docId chunks embs initStore).1) q k' =
        search_index true (add_chunks_to_index true docId chunks embs initStore).1 q k') ∧
      ∃ l, search_index true
          (restart true (add_chunks_to_index true docId chunks embs initStore).1)
          (embs.getD i []) k = .ok l ∧
        l.head? = some (cids.getD i 0, 0) := by
  have hne : embs ≠ [] := by
    intro h
    rw [h] at hi
    simp at hi
  have hadd := add_init docId chunks embs δ hlen hd hne
  have hadd1 : (add_chunks_to_index true docId chunks embs initStore).1 =
      Store.mk (mkRows docId chunks 0) (some (δ, embs))
        (freshIds 0 chunks.length) (some (δ, embs))
        (some (freshIds 0 chunks.length)) chunks.length := by
    rw [hadd]
  have hres : restart true (add_chunks_to_index true docId chunks embs initStore).1 =
      (add_chunks_to_index true docId chunks embs initStore).1 := by
    rw [hadd1]
    exact restart_eq _ _ _ _
  have hq : (embs.getD i []).length = δ := hd _ (getD_mem [] embs i hi)
  refine ⟨freshIds 0 chunks.length, by rw [hadd], freshIds_length _ _, ?_, ?_⟩
  · intro q k'
    rw [hres]
  · rw [hres, hadd1]
    have hN0 : ¬ embs.length = 0 := by
      simpa [List.length_eq_zero] using hne
    have hk0 : ¬ k ≤ 0 := by omega
    have hunfold : search_index true
        (Store.mk (mkRows docId chunks 0) (some (δ, embs))
          (freshIds 0 chunks.length) (some (δ, embs))
          (some (freshIds 0 chunks.length)) chunks.length) (embs.getD i []) k =
        .ok (((List.insertionSort pairLe
            (distListAux (embs.getD i []) embs 0)).take k.toNat ++
          List.replicate (k.toNat - embs.length) ((-1 : Int), (0 : Int))).filterMap
            (fun p => if p.1 < 0 then none
              else some ((freshIds 0 chunks.length).getD p.1.toNat 0, p.2))) := by
      unfold search_index
      dsimp only
      rw [if_neg hN0, if_neg hk0, if_neg (not_not.mpr hq),
        if_neg (show ¬ (true = false) by simp)]
    refine ⟨_, hunfold, ?_⟩
    have hmem : ((i : Int), (0 : Int)) ∈ distListAux (embs.getD i []) embs 0 := by
      rw [mem_distListAux_iff]
      exact ⟨i, hi, by rw [d2_self]; simp⟩
    have hnonneg : ∀ p ∈ distListAux (embs.getD i []) embs 0, 0 ≤ p.2 := by
      intro p hp
      obtain ⟨t, ht, rfl⟩ := (mem_distListAux_iff _ embs 0 p).mp hp
      exact d2_nonneg _ _
    have huniq : ∀ p ∈ distListAux (embs.getD i []) embs 0, p.2 = 0 →
        p = ((i : Int), 0) := by
      intro p hp hp0
      obtain ⟨t, ht, rfl⟩ := (mem_distListAux_iff _ embs 0 p).mp hp
      simp only at hp0
      have hlt : (embs.getD t []).length = δ := hd _ (getD_mem [] embs t ht)
      have hqt : embs.getD i [] = embs.getD t [] :=
        (d2_eq_zero_iff _ _ (by rw [hq, hlt])).mp hp0
      have hti : t = i :=
        (getD_inj_of_nodup [] embs hnodup i t hi ht hqt).symm
      subst hti
      simp only [Prod.mk.injEq]
      exact ⟨by omega, hp0⟩
    have hhead := head_insertionSort_unique_zero _ _ hmem hnonneg huniq
    cases hs : List.insertionSort pairLe (distListAux (embs.getD i []) embs 0) with
    | nil =>
      rw [hs] at hhead
      simp at hhead
    | cons x t =>
      rw [hs] at hhead
      simp only [List.head?_cons, Option.some.injEq] at hhead
      subst hhead
      have hkt : 0 < k.toNat := by omega
      rw [List.take_cons hkt, List.cons_append, List.filterMap_cons]
      dsimp only
      rw [if_neg (show ¬ ((i : Int) < 0) by omega)]
      simp only [List.head?_cons, Option.some.injEq, Int.toNat_natCast]

/-- Witness for C4 (amended): two chunks with distinct one-dimensional
embeddings, querying for the second with `k = 3` after a restart. -/
theorem c4_roundtrip_search_amended_witness :
    ∃ cids, (add_chunks_to_index true "d" ["c1", "c2"] [[5], [7]] initStore).2 =
        .ok cids ∧
      cids.length = (["c1", "c2"] : List String).length ∧
      (∀ q k', search_index true
          (restart true (add_chunks_to_index true "d" ["c1", "c2"] [[5], [7]] initStore).1) q k' =
        search_index true (add_chunks_to_index true "d" ["c1", "c2"] [[5], [7]] initStore).1 q k') ∧
      ∃ l, search_index true
          (restart true (add_chunks_to_index true "d" ["c1", "c2"] [[5], [7]] initStore).1)
          (([[5], [7]] : List Vec).getD 1 []) 3 = .ok l ∧
        l.head? = some (cids.getD 1 0, 0) :=
  c4_roundtrip_search_amended "d" ["c1", "c2"] [[5], [7]] 1 1 3 rfl (by decide)
    (by decide) (by decide) (by decide)

/-- C4 counterexample: two chunks whose embeddings are *identical*.  The
insertion returns ids `[0, 1]`; after restart, searching with the exact
embedding of chunk 2 (`[1]`, id 1) with `k = 1` returns chunk 1's id 0 as
the first (and only) result — not chunk 2's id — so the claim fails at
`i = 2` even though the distance is 0. -/
theorem c4_counterexample :
    (add_chunks_to_index true "d" ["c1", "c2"] [[1], [1]] initStore).2 =
        .ok [0, 1] ∧
      search_index true
        (restart true (add_chunks_to_index true "d" ["c1", "c2"] [[1], [1]] initStore).1)
        [1] 1 = .ok [(0, 0)] ∧
      (0 : Nat) ≠ 1 := by
  decide

end Backend1
